import Mathlib

/-
Verification development for the terminal-GIF generator script
(`generate_terminal_gif.py`).  The definitions below are a shallow
embedding of the script's pure logic:

* `hex_to_rgb`, `get_bg_color` embed the hex-color parser and the
  background-color resolver (local table first, then library table,
  then the literal default `"#0c0e0f"`);
* `prepare_transparent_image` embeds the alpha-compositing helper,
  with the external imaging library's paste-with-mask blend modelled
  by its documented integer formula (`muldiv255`);
* `natural_sort_key` embeds
  `[int(t) if t.isdigit() else t.lower() for t in re.split('([0-9]+)', s)]`,
  with `chunks` computing exactly the piece list that the regex split
  with one capture group produces (alternating maximal non-digit and
  digit runs, starting and ending with a possibly empty non-digit run);
* `keyCmp` embeds the comparison that sorting performs on such keys
  (pairwise element comparison, `none` standing for the type error a
  comparison of an integer with a string would raise);
* `create_gif_from_frames` embeds the fallback GIF encoder over an
  explicit directory model, and `fallback_invoked` embeds the
  orchestration that decides whether the fallback encoder runs.
-/

/-- An RGB color triple, the result type of `hex_to_rgb` (the Python code
uses a 3-tuple of ints). -/
structure RGB where
  r : Nat
  g : Nat
  b : Nat
  deriving DecidableEq, Repr, Inhabited

/-- The hexadecimal digit characters accepted by Python's `int(x, 16)`
with their values. -/
def hexDigits : List (Char × Nat) :=
  [('0', 0), ('1', 1), ('2', 2), ('3', 3), ('4', 4),
   ('5', 5), ('6', 6), ('7', 7), ('8', 8), ('9', 9),
   ('a', 10), ('b', 11), ('c', 12), ('d', 13), ('e', 14), ('f', 15),
   ('A', 10), ('B', 11), ('C', 12), ('D', 13), ('E', 14), ('F', 15)]

/-- Value of a single hexadecimal digit character, as accepted by
Python's `int(x, 16)` for the digit positions of a `#RRGGBB` string;
`none` models the `ValueError` raised on any other character. -/
def hexDigitVal (c : Char) : Option Nat :=
  List.lookup c hexDigits

/-- `int(s, 16)` on a slice of a hex color string: the empty slice and any
slice with a non-hex character raise (`none`); otherwise the base-16 value. -/
def parseHexNat (l : List Char) : Option Nat :=
  if l.isEmpty then none
  else l.foldl (fun acc c => acc.bind (fun a => (hexDigitVal c).map (fun v => 16 * a + v))) (some 0)

/-- Embedding of `hex_to_rgb`: strips leading `'#'` characters
(`str.lstrip('#')`) and parses the three 2-character slices at offsets
0, 2, 4 with `int(-, 16)`.  `none` models the `ValueError` Python
raises on malformed input. -/
def hex_to_rgb (s : String) : Option RGB :=
  let t := s.data.dropWhile (fun c => c = '#')
  match parseHexNat (t.take 2), parseHexNat ((t.drop 2).take 2), parseHexNat ((t.drop 4).take 2) with
  | some rv, some gv, some bv => some ⟨rv, gv, bv⟩
  | _, _, _ => none

/-- Lowercase hex digit for a value `< 16` (used only there). -/
def toHexDigit : Nat → Char
  | 0 => '0' | 1 => '1' | 2 => '2' | 3 => '3' | 4 => '4'
  | 5 => '5' | 6 => '6' | 7 => '7' | 8 => '8' | 9 => '9'
  | 10 => 'a' | 11 => 'b' | 12 => 'c' | 13 => 'd' | 14 => 'e'
  | _ => 'f'

/-- Modelled from the spec: the inverse `#RRGGBB` formatting used to state
the hex round-trip property ("converting back to hex reproduces the
original string"); the script itself has no such formatter. -/
def rgb_to_hex (c : RGB) : String :=
  String.mk ['#', toHexDigit (c.r / 16), toHexDigit (c.r % 16),
             toHexDigit (c.g / 16), toHexDigit (c.g % 16),
             toHexDigit (c.b / 16), toHexDigit (c.b % 16)]

/-- The `default_colors` sub-table of a color-scheme entry; `bg` may be
absent (`dict.get("bg", ...)` then yields the caller's default). -/
structure DefaultColors where
  bg : Option String
  deriving DecidableEq, Repr

/-- One named color-scheme entry of a TOML color table; the
`default_colors` sub-table may be absent. -/
structure SchemeEntry where
  default_colors : Option DefaultColors
  deriving DecidableEq, Repr

/-- `entry.get("default_colors", {}).get("bg", "#0c0e0f")`. -/
def bgHexOf (e : SchemeEntry) : String :=
  (e.default_colors.bind DefaultColors.bg).getD "#0c0e0f"

/-- Embedding of `get_bg_color`, abstracted over the two color tables
(`local_colors` from `ansi_escape_colors.toml` and the gifos library
table) and the configured scheme name: if the scheme is a key of the
local table its entry alone is consulted, otherwise the library table
is consulted, with the literal `"#0c0e0f"` as final default; the chosen
hex string is then converted with `hex_to_rgb`. -/
def get_bg_color (localColors gifosColors : List (String × SchemeEntry)) (scheme : String) :
    Option RGB :=
  let bg_hex :=
    match List.lookup scheme localColors with
    | some e => bgHexOf e
    | none =>
      match List.lookup scheme gifosColors with
      | some e => bgHexOf e
      | none => "#0c0e0f"
  hex_to_rgb bg_hex

/-- An RGBA pixel (channel values 0..255, alpha 0 = fully transparent). -/
structure RGBA where
  r : Nat
  g : Nat
  b : Nat
  a : Nat
  deriving DecidableEq, Repr, Inhabited

/-- A source image in `RGBA` mode: a rectangular pixel grid given as a
list of rows.  (`prepare_transparent_image` converts any non-`RGBA`
source to `RGBA` first, so the model works in `RGBA` mode throughout.) -/
structure RGBAImage where
  width : Nat
  height : Nat
  rows : List (List RGBA)
  deriving DecidableEq, Repr, Inhabited

/-- An opaque `RGB`-mode image, the result of compositing. -/
structure RGBImage where
  width : Nat
  height : Nat
  rows : List (List RGB)
  deriving DecidableEq, Repr, Inhabited

/-- The imaging library's exact `MULDIV255` rounding on byte values:
`t := a * m + 128; ((t >> 8) + t) >> 8`. -/
def muldiv255 (a m : Nat) : Nat :=
  ((a * m + 128) / 256 + (a * m + 128)) / 256

/-- One channel of `Image.paste(img, (0, 0), img)` with the source's
alpha band as mask: the background channel weighted by `255 - alpha`
plus the source channel weighted by `alpha`. -/
def blendChannel (bgc src m : Nat) : Nat :=
  muldiv255 bgc (255 - m) + muldiv255 src m

/-- One pixel of the paste-with-alpha-mask composite. -/
def blendPixel (bg : RGB) (p : RGBA) : RGB :=
  ⟨blendChannel bg.r p.r p.a, blendChannel bg.g p.g p.a, blendChannel bg.b p.b p.a⟩

/-- Embedding of `prepare_transparent_image`: creates an opaque `RGB`
canvas of the source's size filled with `bg` and pastes the source onto
it using its own alpha channel as mask.  (The temporary-file plumbing
around the pixel transformation is I/O and is not part of the model.) -/
def prepare_transparent_image (img : RGBAImage) (bg : RGB) : RGBImage :=
  { width := img.width
    height := img.height
    rows := img.rows.map (fun row => row.map (blendPixel bg)) }

/-- A piece of `re.split('([0-9]+)', s)`: a non-digit run (a plain piece
between matches) or a captured maximal digit run. -/
inductive Chunk where
  | strC : List Char → Chunk
  | numC : List Char → Chunk
  deriving DecidableEq, Repr

/-- The characters of a piece. -/
def Chunk.contents : Chunk → List Char
  | .strC l => l
  | .numC l => l

/-- Whether a piece is a non-digit piece. -/
def Chunk.isStr : Chunk → Bool
  | .strC _ => true
  | .numC _ => false

/-- Prepend one character to a piece list: a digit character extends (or
opens) the leading captured digit run, any other character extends the
leading non-digit piece. -/
def stepChunk (c : Char) (chs : List Chunk) : List Chunk :=
  if c.isDigit then
    match chs with
    | Chunk.strC [] :: Chunk.numC d :: rest => Chunk.strC [] :: Chunk.numC (c :: d) :: rest
    | _ => Chunk.strC [] :: Chunk.numC [c] :: chs
  else
    match chs with
    | Chunk.strC a :: rest => Chunk.strC (c :: a) :: rest
    | _ => Chunk.strC [c] :: chs

/-- The piece list of `re.split('([0-9]+)', s)`: alternating maximal
non-digit and digit runs, beginning and ending with a (possibly empty)
non-digit piece. -/
def chunks (l : List Char) : List Chunk :=
  l.foldr stepChunk [Chunk.strC []]

/-- A token of a natural sort key: Python mixes `str` and `int` values
in the key list. -/
inductive Tok where
  | str : List Char → Tok
  | num : Nat → Tok
  deriving DecidableEq, Repr

/-- Whether a token is a string token. -/
def Tok.isStrT : Tok → Bool
  | .str _ => true
  | .num _ => false

/-- `int(text)` for a decimal digit run. -/
def digitsVal (l : List Char) : Nat :=
  l.foldl (fun a c => 10 * a + (c.toNat - 48)) 0

/-- `int(text) if text.isdigit() else text.lower()` applied to one piece
of the split, restricted to pieces free of non-ASCII digit characters:
Python's `str.isdigit()` is Unicode-aware, so this function is exact
only there.  `pyTokU` below carries the Unicode-aware behavior and
agrees with this one on such pieces (`pyTokU_eq_pyTok`). -/
def pyTok (l : List Char) : Tok :=
  if l ≠ [] ∧ l.all Char.isDigit then Tok.num (digitsVal l)
  else Tok.str (l.map Char.toLower)

/-- Embedding of `natural_sort_key`, exact on strings free of non-ASCII
digit characters (see `natural_sort_key_py` for the Unicode-aware
extension and `natural_sort_key_py_eq` for their agreement). -/
def natural_sort_key (s : String) : List Tok :=
  (chunks s.data).map (fun ch => pyTok ch.contents)

/-- Three-way comparison on `Nat` (Python `int` comparison). -/
def natCompare (a b : Nat) : Ordering :=
  if a < b then .lt else if a = b then .eq else .gt

/-- Python string comparison on the underlying code points:
lexicographic, a strict prefix being smaller. -/
def charListCmp : List Char → List Char → Ordering
  | [], [] => .eq
  | [], _ :: _ => .lt
  | _ :: _, [] => .gt
  | a :: as, b :: bs =>
    match natCompare a.toNat b.toNat with
    | .lt => .lt
    | .gt => .gt
    | .eq => charListCmp as bs

/-- Comparison of two key tokens; `none` models the `TypeError` Python
raises when an `int` is ordered against a `str`. -/
def tokCmp : Tok → Tok → Option Ordering
  | .str a, .str b => some (charListCmp a b)
  | .num a, .num b => some (natCompare a b)
  | _, _ => none

/-- Python list comparison of two keys: first differing position decides,
a strict prefix is smaller; the comparison propagates the `TypeError`
of a mixed-type element comparison. -/
def keyCmp : List Tok → List Tok → Option Ordering
  | [], [] => some .eq
  | [], _ :: _ => some .lt
  | _ :: _, [] => some .gt
  | x :: xs, y :: ys =>
    match tokCmp x y with
    | none => none
    | some .lt => some .lt
    | some .gt => some .gt
    | some .eq => keyCmp xs ys

/-- The ordering `sort(key=natural_sort_key)` uses on filenames:
`s` precedes-or-ties `t` when the key comparison does not say `gt`. -/
def keyLe (s t : String) : Prop :=
  keyCmp (natural_sort_key s) (natural_sort_key t) ≠ some Ordering.gt

instance : DecidableRel keyLe :=
  fun s t =>
    inferInstanceAs (Decidable (keyCmp (natural_sort_key s) (natural_sort_key t) ≠ some Ordering.gt))

/-- A frame image quantized to a palette (`img.convert('P', ...)`). -/
structure PalImage where
  palette : List RGB
  rows : List (List Nat)
  deriving DecidableEq, Repr, Inhabited

/-- The RGB part of an RGBA pixel. -/
def rgbOf (p : RGBA) : RGB := ⟨p.r, p.g, p.b⟩

/-- Model of `img.convert('P', palette=Image.ADAPTIVE, colors=256)` of
the external imaging library: the image is re-expressed over a palette
of at most 256 colors.  The adaptive palette-selection algorithm is
internal to the library; the model keeps the first up-to-256 distinct
colors, which realizes the documented at-most-256-colors contract. -/
def convertP (img : RGBAImage) : PalImage :=
  let colors := ((img.rows.flatten.map rgbOf).dedup).take 256
  { palette := colors
    rows := img.rows.map (fun row => row.map (fun p => colors.indexOf (rgbOf p))) }

/-- The frames directory: its listing (`os.listdir`) with the image
stored under each filename. -/
structure Dir where
  entries : List (String × RGBAImage)
  deriving DecidableEq, Repr, Inhabited

/-- `[f for f in os.listdir(frames_dir) if f.endswith('.png')]`. -/
def pngs (entries : List (String × RGBAImage)) : List String :=
  (entries.map Prod.fst).filter (fun f => List.isSuffixOf ".png".data f.data)

/-- `Image.open(os.path.join(frames_dir, filename))` in the directory
model: the image stored under the name, if any. -/
def openImage (d : Dir) (name : String) : Option RGBAImage :=
  List.lookup name d.entries

/-- The animated GIF artifact written by `frames[0].save(...)`: the frame
sequence, the per-frame display durations in milliseconds, and the loop
count (`0` meaning loop forever in the GIF format). -/
structure GifData where
  frames : List PalImage
  durations : List Nat
  loop : Nat
  deriving DecidableEq, Repr, Inhabited

/-- `frame_duration = int(1000 / fps)`: Python truncates the float
quotient toward zero, which for the divisions arising here (in
particular `fps = 15`) coincides with `Nat` floor division. -/
def frame_duration (fps : Nat) : Nat :=
  1000 / fps

/-- `frames[0].save(output, save_all=True, append_images=frames[1:],
duration=..., loop=...)`: a scalar `duration` is applied by the encoder
to every frame of the written file. -/
def saveGif (frames : List PalImage) (duration loop : Nat) : GifData :=
  { frames := frames
    durations := List.replicate frames.length duration
    loop := loop }

/-- The frame-loading loop of `create_gif_from_frames`: open each file in
order and quantize it; a file that cannot be opened raises (`.error`). -/
def loadFrames (d : Dir) : List String → Except String (List PalImage)
  | [] => .ok []
  | n :: ns =>
    match openImage d n with
    | some img =>
      match loadFrames d ns with
      | .ok rest => .ok (convertP img :: rest)
      | .error e => .error e
    | none => .error "cannot identify image file"

/-- Embedding of `create_gif_from_frames` (fps fixed at 15 as in the
script): list the `.png` files, sort them by `natural_sort_key` (Python
`list.sort` is a stable sort by the key, modelled by `insertionSort`
over `keyLe`), return without writing anything if no frames were found
(`.ok none`), otherwise load and quantize every frame in order and save
them as one GIF with the computed uniform duration and `loop=0`. -/
def create_gif_from_frames (d : Dir) : Except String (Option GifData) :=
  let fps := 15
  let frame_files := List.insertionSort keyLe (pngs d.entries)
  if frame_files.isEmpty then .ok none
  else
    match loadFrames d frame_files with
    | .ok frames => .ok (some (saveGif frames (frame_duration fps) 0))
    | .error e => .error e

/-- Observable outcome of the primary (`ffmpeg`-based) encoder attempt:
whether `t.gen_gif()` raised, and whether/with which size it left
`output.gif` on disk. -/
structure EncodeAttempt where
  genGifRaises : Bool
  outputExists : Bool
  outputSize : Nat
  deriving DecidableEq, Repr

/-- The `try` body of `main`'s GIF generation: `t.gen_gif()` may raise;
on normal return the output file must exist and be larger than 10000
bytes, else `raise Exception("ffmpeg output missing or too small")`. -/
def primary_gif_ok (st : EncodeAttempt) : Except String Unit :=
  if st.genGifRaises then Except.error "gen_gif raised"
  else if st.outputExists = true ∧ st.outputSize > 10000 then Except.ok ()
  else Except.error "ffmpeg output missing or too small"

/-- The `except` clause: the fallback encoder `create_gif_from_frames`
runs exactly when the `try` body signalled failure. -/
def fallback_invoked (st : EncodeAttempt) : Bool :=
  match primary_gif_ok st with
  | Except.ok _ => false
  | Except.error _ => true

deriving instance DecidableEq for Except

/-- Well-formedness of one piece of the split: non-digit pieces contain
no digits, captured pieces are nonempty and all digits. -/
def chunkOk : Chunk → Bool
  | .strC l => l.all (fun c => !c.isDigit)
  | .numC l => !l.isEmpty && l.all Char.isDigit

/-- The pieces of a split alternate between non-digit (`b = true`) and
digit (`b = false`) pieces, each well-formed. -/
def chunkShape : Bool → List Chunk → Bool
  | _, [] => true
  | b, ch :: rest => (ch.isStr == b) && chunkOk ch && chunkShape (!b) rest

/-- Key tokens alternate between string (`b = true`) and integer
(`b = false`) tokens. -/
def altFrom : Bool → List Tok → Bool
  | _, [] => true
  | b, t :: ts => (t.isStrT == b) && altFrom (!b) ts

/-- Modelled from the external language runtime: non-ASCII decimal digit
characters (Unicode category Nd), which Python's `str.isdigit()`
accepts and `int()` converts, with their values.  The full table is the
runtime's Unicode database; the model carries the Arabic-Indic digits
U+0660..U+0669 as an explicit fragment, enough to express inputs on
which the tokenizer emits integer tokens at even positions.
(Characters such as the superscript two, where `str.isdigit()` holds
but `int()` raises, are outside the model; they only add further
failure modes of the tokenizer on exotic input.) -/
def pyExtraDigits : List (Char × Nat) :=
  [('٠', 0), ('١', 1), ('٢', 2), ('٣', 3), ('٤', 4),
   ('٥', 5), ('٦', 6), ('٧', 7), ('٨', 8), ('٩', 9)]

/-- Python's Unicode-aware `str.isdigit()` on one character, over the
modelled character set: ASCII digits plus the `pyExtraDigits` table. -/
def pyIsDigit (c : Char) : Bool :=
  c.isDigit || (List.lookup c pyExtraDigits).isSome

/-- The value `int()` assigns to one accepted digit character. -/
def pyDigitVal (c : Char) : Nat :=
  if c.isDigit then c.toNat - 48 else (List.lookup c pyExtraDigits).getD 0

/-- `int(text)` over the modelled digit characters. -/
def pyDigitsVal (l : List Char) : Nat :=
  l.foldl (fun a c => 10 * a + pyDigitVal c) 0

/-- `int(text) if text.isdigit() else text.lower()` with the
Unicode-aware `str.isdigit()`: the faithful piece tokenizer over the
modelled character set. -/
def pyTokU (l : List Char) : Tok :=
  if l ≠ [] ∧ l.all pyIsDigit then Tok.num (pyDigitsVal l)
  else Tok.str (l.map Char.toLower)

/-- `natural_sort_key` with the Unicode-aware `str.isdigit()`: the
faithful embedding on strings that may contain non-ASCII digit
characters.  The regex split itself is ASCII `[0-9]` and unchanged, so
a non-ASCII digit lands inside a non-captured piece, which
`str.isdigit()` can nonetheless send to `int()`. -/
def natural_sort_key_py (s : String) : List Tok :=
  (chunks s.data).map (fun ch => pyTokU ch.contents)

/-! ### Theorems -/

/-- The frame-directory listing of the example used against claim C4. -/
def exDirC4 : Dir := ⟨[("notes.txt", default)]⟩

/-- C4 — When the frame directory contains zero files with the `.png`
extension, the fallback encoder returns normally (`.ok`) without
raising and without producing any output file (`none`). -/
theorem fallback_no_frames (d : Dir) (h : pngs d.entries = []) :
    create_gif_from_frames d = Except.ok none := by
  simp only [create_gif_from_frames, h]
  rfl

/-- Witness for C4 at a directory holding one non-`.png` file. -/
theorem fallback_no_frames_witness :
    pngs exDirC4.entries = [] ∧ create_gif_from_frames exDirC4 = Except.ok none :=
  ⟨by decide, fallback_no_frames exDirC4 (by decide)⟩

/-- C3 — The primary encoder invocation is treated as failed, and hence
the fallback encoder invoked, exactly when `t.gen_gif()` raises, or the
expected output file is absent, or its size does not exceed the 10000
byte threshold (i.e. the minimum acceptable size is 10001 bytes). -/
theorem fallback_trigger_iff (st : EncodeAttempt) :
    fallback_invoked st = true ↔
      (st.genGifRaises = true ∨ st.outputExists = false ∨ st.outputSize ≤ 10000) := by
  unfold fallback_invoked primary_gif_ok
  split_ifs with h1 h2
  · simp [h1]
  · obtain ⟨he, hs⟩ := h2
    simp [h1, he]
    omega
  · simp only [true_iff]
    cases hb : st.outputExists
    · exact Or.inr (Or.inl rfl)
    · refine Or.inr (Or.inr ?_)
      by_contra hgt
      push_neg at hgt
      exact h2 ⟨hb, hgt⟩

/-- A successful association-list lookup finds a pair of the list. -/
theorem mem_of_lookup_eq_some {α β : Type} [DecidableEq α] [BEq α] [LawfulBEq α]
    {l : List (α × β)} {k : α} {v : β}
    (h : List.lookup k l = some v) : (k, v) ∈ l := by
  induction l with
  | nil => simp [List.lookup] at h
  | cons p rest ih =>
    obtain ⟨k0, v0⟩ := p
    by_cases hk : k = k0
    · subst hk
      simp only [List.lookup, beq_self_eq_true] at h
      cases h
      exact List.mem_cons_self _ _
    · have hbe : (k == k0) = false := beq_eq_false_iff_ne.mpr hk
      simp only [List.lookup, hbe] at h
      exact List.mem_cons_of_mem _ (ih h)

/-- C6 — Background-color resolution follows local-first precedence and
is total: a scheme in the local table resolves from the local entry
alone (whatever the library table says); a scheme only in the library
table resolves from the library entry; a wholly unknown scheme resolves
to the literal default `(12, 14, 15)`; and whenever every `bg` value of
the two tables is a parsable hex string the resolution yields a value. -/
theorem get_bg_color_precedence (lc gc : List (String × SchemeEntry)) (scheme : String) :
    (∀ e h, List.lookup scheme lc = some e →
      e.default_colors.bind DefaultColors.bg = some h →
      get_bg_color lc gc scheme = hex_to_rgb h) ∧
    (List.lookup scheme lc = none → ∀ e h, List.lookup scheme gc = some e →
      e.default_colors.bind DefaultColors.bg = some h →
      get_bg_color lc gc scheme = hex_to_rgb h) ∧
    (List.lookup scheme lc = none → List.lookup scheme gc = none →
      get_bg_color lc gc scheme = some ⟨12, 14, 15⟩) ∧
    ((∀ p ∈ lc, ∀ h, (p : String × SchemeEntry).2.default_colors.bind DefaultColors.bg = some h →
        (hex_to_rgb h).isSome = true) →
      (∀ p ∈ gc, ∀ h, (p : String × SchemeEntry).2.default_colors.bind DefaultColors.bg = some h →
        (hex_to_rgb h).isSome = true) →
      (get_bg_color lc gc scheme).isSome = true) := by
  refine ⟨?_, ?_, ?_, ?_⟩
  · intro e h hl hb
    simp [get_bg_color, hl, bgHexOf, hb]
  · intro hl e h hg hb
    simp [get_bg_color, hl, hg, bgHexOf, hb]
  · intro hl hg
    simp only [get_bg_color, hl, hg]
    decide
  · intro hv1 hv2
    cases hl : List.lookup scheme lc with
    | some e =>
      cases hb : e.default_colors.bind DefaultColors.bg with
      | some h =>
        rw [(by simp [get_bg_color, hl, bgHexOf, hb] :
          get_bg_color lc gc scheme = hex_to_rgb h)]
        exact hv1 (scheme, e) (mem_of_lookup_eq_some hl) h hb
      | none =>
        simp only [get_bg_color, hl, bgHexOf, hb]
        decide
    | none =>
      cases hg : List.lookup scheme gc with
      | some e =>
        cases hb : e.default_colors.bind DefaultColors.bg with
        | some h =>
          rw [(by simp [get_bg_color, hl, hg, bgHexOf, hb] :
            get_bg_color lc gc scheme = hex_to_rgb h)]
          exact hv2 (scheme, e) (mem_of_lookup_eq_some hg) h hb
        | none =>
          simp only [get_bg_color, hl, hg, bgHexOf, hb]
          decide
      | none =>
        simp only [get_bg_color, hl, hg]
        decide

/-- The local color table of the example used against claim C6. -/
def exLocalColors : List (String × SchemeEntry) :=
  [("yoru", ⟨some ⟨some "#123456"⟩⟩), ("nobg", ⟨none⟩)]

/-- The library color table of the example used against claim C6. -/
def exGifosColors : List (String × SchemeEntry) :=
  [("yoru", ⟨some ⟨some "#abcdef"⟩⟩), ("gonly", ⟨some ⟨some "#00ff00"⟩⟩)]

/-- Witness for C6: the local value wins over the library value for
`"yoru"`, the library value is used for `"gonly"`, an unknown scheme
resolves to `(12, 14, 15)`, and resolution yields a value. -/
theorem get_bg_color_precedence_witness :
    get_bg_color exLocalColors exGifosColors "yoru" = some ⟨18, 52, 86⟩ ∧
    get_bg_color exLocalColors exGifosColors "gonly" = some ⟨0, 255, 0⟩ ∧
    get_bg_color exLocalColors exGifosColors "unknown" = some ⟨12, 14, 15⟩ ∧
    (get_bg_color exLocalColors exGifosColors "yoru").isSome = true :=
  ⟨((get_bg_color_precedence exLocalColors exGifosColors "yoru").1
      ⟨some ⟨some "#123456"⟩⟩ "#123456" (by decide) (by decide)).trans (by decide),
   (((get_bg_color_precedence exLocalColors exGifosColors "gonly").2.1
      (by decide) ⟨some ⟨some "#00ff00"⟩⟩ "#00ff00" (by decide) (by decide))).trans (by decide),
   (get_bg_color_precedence exLocalColors exGifosColors "unknown").2.2.1 (by decide) (by decide),
   (get_bg_color_precedence exLocalColors exGifosColors "yoru").2.2.2
     (by decide) (by decide)⟩

/-- C10 — If the configured scheme is a key of the local table but its
entry carries no `default_colors.bg` value, resolution returns the
hard-coded literal default `(12, 14, 15)` without consulting the
library table, whatever that table contains. -/
theorem get_bg_color_local_missing_bg (lc gc : List (String × SchemeEntry)) (scheme : String)
    (e : SchemeEntry) (hl : List.lookup scheme lc = some e)
    (hb : e.default_colors.bind DefaultColors.bg = none) :
    get_bg_color lc gc scheme = some ⟨12, 14, 15⟩ := by
  simp only [get_bg_color, hl, bgHexOf, hb]
  decide

/-- Witness for C10: the local `"nobg"` entry has no `bg`, the library
table defines one, and resolution still returns `(12, 14, 15)`. -/
theorem get_bg_color_local_missing_bg_witness :
    get_bg_color exLocalColors [("nobg", ⟨some ⟨some "#ff0000"⟩⟩)] "nobg" = some ⟨12, 14, 15⟩ :=
  get_bg_color_local_missing_bg exLocalColors [("nobg", ⟨some ⟨some "#ff0000"⟩⟩)] "nobg"
    ⟨none⟩ (by decide) (by decide)

/-- A map whose function is constant on the list yields a `replicate`. -/
theorem map_eq_replicate {α β : Type} (l : List α) (f : α → β) (c : β)
    (h : ∀ x ∈ l, f x = c) : l.map f = List.replicate l.length c := by
  induction l with
  | nil => rfl
  | cons x xs ih =>
    rw [List.map_cons, List.length_cons, List.replicate_succ,
      h x (List.mem_cons_self x xs), ih (fun y hy => h y (List.mem_cons_of_mem x hy))]

/-- Pasting a fully transparent pixel leaves the background color
`(12, 14, 15)` exactly. -/
theorem blendPixel_transparent (p : RGBA) (h : p.a = 0) :
    blendPixel ⟨12, 14, 15⟩ p = ⟨12, 14, 15⟩ := by
  simp only [blendPixel, blendChannel, muldiv255, h, Nat.sub_zero, Nat.mul_zero]

/-- C7 — Compositing a source image whose every pixel is fully
transparent onto background color `(12, 14, 15)` produces an image of
the source's dimensions whose every pixel is `(12, 14, 15)`. -/
theorem composite_transparent (img : RGBAImage)
    (hw : ∀ row ∈ img.rows, row.length = img.width)
    (hh : img.rows.length = img.height)
    (ha : ∀ row ∈ img.rows, ∀ p ∈ row, p.a = 0) :
    prepare_transparent_image img ⟨12, 14, 15⟩ =
      { width := img.width
        height := img.height
        rows := List.replicate img.height (List.replicate img.width (⟨12, 14, 15⟩ : RGB)) } := by
  unfold prepare_transparent_image
  have hrows : img.rows.map (fun row => row.map (blendPixel ⟨12, 14, 15⟩)) =
      List.replicate img.rows.length (List.replicate img.width (⟨12, 14, 15⟩ : RGB)) := by
    apply map_eq_replicate
    intro row hrow
    rw [map_eq_replicate row _ _ (fun p hp => blendPixel_transparent p (ha row hrow p hp)),
      hw row hrow]
  rw [hrows, hh]

/-- The fully transparent 2-by-1 image of the witness for C7. -/
def exImgC7 : RGBAImage := ⟨2, 1, [[⟨200, 100, 50, 0⟩, ⟨1, 2, 3, 0⟩]]⟩

/-- Witness for C7 at a concrete fully transparent 2-by-1 image. -/
theorem composite_transparent_witness :
    prepare_transparent_image exImgC7 ⟨12, 14, 15⟩ =
      { width := exImgC7.width
        height := exImgC7.height
        rows := List.replicate exImgC7.height
          (List.replicate exImgC7.width (⟨12, 14, 15⟩ : RGB)) } :=
  composite_transparent exImgC7 (by decide) (by decide) (by decide)

/-- Each hex digit accepted by `hexDigitVal` has value below 16,
formats back (lowercase) to its own lowercase form, and is not `'#'`. -/
theorem hexDigitVal_spec (c : Char) (v : Nat) (h : hexDigitVal c = some v) :
    v < 16 ∧ toHexDigit v = c.toLower ∧ c ≠ '#' := by
  have hall : ∀ p ∈ hexDigits, p.2 < 16 ∧ toHexDigit p.2 = p.1.toLower ∧ p.1 ≠ '#' := by
    decide
  exact hall (c, v) (mem_of_lookup_eq_some h)

/-- C8 — For every valid `#RRGGBB` hex color string, `hex_to_rgb`
succeeds and re-formatting the triple as `#rrggbb` reproduces the
original string up to letter case. -/
theorem hex_to_rgb_roundtrip (c1 c2 c3 c4 c5 c6 : Char)
    (h1 : (hexDigitVal c1).isSome = true) (h2 : (hexDigitVal c2).isSome = true)
    (h3 : (hexDigitVal c3).isSome = true) (h4 : (hexDigitVal c4).isSome = true)
    (h5 : (hexDigitVal c5).isSome = true) (h6 : (hexDigitVal c6).isSome = true) :
    (hex_to_rgb (String.mk ['#', c1, c2, c3, c4, c5, c6])).map rgb_to_hex =
      some (String.mk ('#' :: ([c1, c2, c3, c4, c5, c6].map Char.toLower))) := by
  obtain ⟨v1, hv1⟩ := Option.isSome_iff_exists.mp h1
  obtain ⟨v2, hv2⟩ := Option.isSome_iff_exists.mp h2
  obtain ⟨v3, hv3⟩ := Option.isSome_iff_exists.mp h3
  obtain ⟨v4, hv4⟩ := Option.isSome_iff_exists.mp h4
  obtain ⟨v5, hv5⟩ := Option.isSome_iff_exists.mp h5
  obtain ⟨v6, hv6⟩ := Option.isSome_iff_exists.mp h6
  obtain ⟨hb1, hf1, hs1⟩ := hexDigitVal_spec c1 v1 hv1
  obtain ⟨hb2, hf2, hs2⟩ := hexDigitVal_spec c2 v2 hv2
  obtain ⟨hb3, hf3, hs3⟩ := hexDigitVal_spec c3 v3 hv3
  obtain ⟨hb4, hf4, hs4⟩ := hexDigitVal_spec c4 v4 hv4
  obtain ⟨hb5, hf5, hs5⟩ := hexDigitVal_spec c5 v5 hv5
  obtain ⟨hb6, hf6, hs6⟩ := hexDigitVal_spec c6 v6 hv6
  have hdrop : (String.mk ['#', c1, c2, c3, c4, c5, c6]).data.dropWhile (fun c => c = '#') =
      [c1, c2, c3, c4, c5, c6] := by
    simp [List.dropWhile, hs1]
  have hp1 : parseHexNat [c1, c2] = some (16 * v1 + v2) := by
    simp [parseHexNat, hv1, hv2]
  have hp2 : parseHexNat [c3, c4] = some (16 * v3 + v4) := by
    simp [parseHexNat, hv3, hv4]
  have hp3 : parseHexNat [c5, c6] = some (16 * v5 + v6) := by
    simp [parseHexNat, hv5, hv6]
  have hdig : ∀ a b : Nat, a < 16 → b < 16 →
      (16 * a + b) / 16 = a ∧ (16 * a + b) % 16 = b := by
    intro a b ha hb
    omega
  unfold hex_to_rgb
  rw [hdrop]
  simp only [List.take, List.drop]
  rw [hp1, hp2, hp3]
  simp only [Option.map_some', rgb_to_hex]
  rw [(hdig v1 v2 hb1 hb2).1, (hdig v1 v2 hb1 hb2).2,
    (hdig v3 v4 hb3 hb4).1, (hdig v3 v4 hb3 hb4).2,
    (hdig v5 v6 hb5 hb6).1, (hdig v5 v6 hb5 hb6).2,
    hf1, hf2, hf3, hf4, hf5, hf6]
  simp [List.map]

/-- Witness for C8 at the mixed-case string `"#0C0e0F"`. -/
theorem hex_to_rgb_roundtrip_witness :
    (hex_to_rgb "#0C0e0F").map rgb_to_hex = some "#0c0e0f" :=
  hex_to_rgb_roundtrip '0' 'C' '0' 'e' '0' 'F'
    (by decide) (by decide) (by decide) (by decide) (by decide) (by decide)

/-- A key occurring in an association list is found by lookup. -/
theorem lookup_isSome_of_mem_keys {β : Type} (l : List (String × β)) (n : String)
    (h : n ∈ l.map Prod.fst) : (List.lookup n l).isSome = true := by
  induction l with
  | nil => simp at h
  | cons p rest ih =>
    obtain ⟨k0, v0⟩ := p
    by_cases hk : n = k0
    · subst hk
      simp [List.lookup]
    · have hbe : (n == k0) = false := beq_eq_false_iff_ne.mpr hk
      simp only [List.lookup, hbe]
      apply ih
      rcases List.mem_cons.mp h with heq | hmem
      · exact absurd heq hk
      · exact hmem

/-- When every listed frame file can be opened, the loading loop
succeeds and produces the quantized frames in listing order. -/
theorem loadFrames_ok (d : Dir) (ns : List String)
    (h : ∀ n ∈ ns, (openImage d n).isSome = true) :
    loadFrames d ns =
      Except.ok (ns.map (fun n => convertP ((openImage d n).getD default))) := by
  induction ns with
  | nil => rfl
  | cons n ns ih =>
    obtain ⟨img, himg⟩ := Option.isSome_iff_exists.mp (h n (List.mem_cons_self n ns))
    rw [List.map_cons]
    simp only [loadFrames, himg,
      ih (fun m hm => h m (List.mem_cons_of_mem n hm)), Option.getD_some]

/-- Every filename of the sorted `.png` listing can be opened in the
directory it was listed from. -/
theorem sorted_pngs_mem {d : Dir} {n : String}
    (h : n ∈ List.insertionSort keyLe (pngs d.entries)) : (openImage d n).isSome = true := by
  have h2 : n ∈ pngs d.entries := (List.perm_insertionSort keyLe _).mem_iff.mp h
  have h3 : n ∈ d.entries.map Prod.fst := (List.mem_filter.mp h2).1
  exact lookup_isSome_of_mem_keys d.entries n h3

/-- On a directory with at least one `.png` file the fallback encoder
returns the GIF assembled from the naturally sorted, quantized frames
with the uniform computed duration and `loop = 0`. -/
theorem create_gif_ok (d : Dir) (h : pngs d.entries ≠ []) :
    create_gif_from_frames d = Except.ok (some (saveGif
      ((List.insertionSort keyLe (pngs d.entries)).map
        (fun n => convertP ((openImage d n).getD default)))
      (frame_duration 15) 0)) := by
  have hne : (List.insertionSort keyLe (pngs d.entries)).isEmpty = false := by
    cases hE : (List.insertionSort keyLe (pngs d.entries)).isEmpty
    · rfl
    · exfalso
      have hnil := List.isEmpty_iff.mp hE
      have hlen := (List.perm_insertionSort keyLe (pngs d.entries)).length_eq
      rw [hnil] at hlen
      exact h (List.length_eq_zero.mp hlen.symm)
  simp only [create_gif_from_frames, hne, Bool.false_eq_true, if_false,
    loadFrames_ok d _ (fun n hn => sorted_pngs_mem hn)]

/-- The one-frame image of the examples used against claim C1. -/
def exImgC1 : RGBAImage := ⟨1, 1, [[⟨0, 0, 0, 255⟩]]⟩

/-- The one-frame directory of the examples used against claim C1. -/
def exDirC1 : Dir := ⟨[("frame_0.png", exImgC1)]⟩

/-- Counterexample to C1: at fps 15 the script computes
`int(1000 / 15) = 66`, not `round(1000 / 15) = 67`, and the GIF written
for a one-frame directory carries duration 66. -/
theorem frame_duration_66_counterexample :
    create_gif_from_frames exDirC1 =
      Except.ok (some (GifData.mk [PalImage.mk [RGB.mk 0 0 0] [[0]]] [66] 0)) ∧
    frame_duration 15 = 66 ∧ frame_duration 15 ≠ 67 :=
  ⟨by decide, by decide, by decide⟩

/-- C1 (amended) — For the fallback encoder at fps 15, the per-frame
duration written into the output equals `int(1000 / 15) = 66`
milliseconds (truncation, not rounding), and this duration is applied
uniformly to every frame of the output. -/
theorem fallback_duration_uniform (d : Dir) (h : pngs d.entries ≠ []) :
    ∃ g, create_gif_from_frames d = Except.ok (some g) ∧
      g.durations = List.replicate g.frames.length (frame_duration 15) ∧
      frame_duration 15 = 66 := by
  refine ⟨_, create_gif_ok d h, ?_, rfl⟩
  simp [saveGif]

/-- Witness for the amended C1 at a concrete one-frame directory. -/
theorem fallback_duration_uniform_witness :
    pngs exDirC1.entries ≠ [] ∧
    ∃ g, create_gif_from_frames exDirC1 = Except.ok (some g) ∧
      g.durations = List.replicate g.frames.length (frame_duration 15) ∧
      frame_duration 15 = 66 :=
  ⟨by decide, fallback_duration_uniform exDirC1 (by decide)⟩

/-- `natCompare` is reflexive. -/
theorem natCompare_refl (n : Nat) : natCompare n n = Ordering.eq := by
  simp [natCompare]

/-- `natCompare` answers `eq` exactly on equal numbers. -/
theorem natCompare_eq_iff {a b : Nat} : natCompare a b = Ordering.eq ↔ a = b := by
  unfold natCompare
  split_ifs <;> simp <;> omega

/-- `natCompare` answers `lt` exactly on smaller numbers. -/
theorem natCompare_lt_iff {a b : Nat} : natCompare a b = Ordering.lt ↔ a < b := by
  unfold natCompare
  split_ifs <;> simp <;> omega

/-- Swapping the arguments of `natCompare` swaps the answer. -/
theorem natCompare_swap (a b : Nat) : natCompare a b = (natCompare b a).swap := by
  unfold natCompare
  split_ifs <;> simp [Ordering.swap] <;> omega

/-- Characters with equal code points are equal. -/
theorem char_toNat_inj {a b : Char} (h : a.toNat = b.toNat) : a = b :=
  Char.ext (UInt32.ext h)

/-- String comparison is reflexive. -/
theorem charListCmp_refl (l : List Char) : charListCmp l l = Ordering.eq := by
  induction l with
  | nil => rfl
  | cons c cs ih => simp [charListCmp, natCompare_refl, ih]

/-- String comparison answers `eq` only on equal strings. -/
theorem charListCmp_eq {a : List Char} : ∀ {b}, charListCmp a b = Ordering.eq → a = b := by
  induction a with
  | nil =>
    intro b h
    cases b with
    | nil => rfl
    | cons y ys => simp [charListCmp] at h
  | cons x xs ih =>
    intro b h
    cases b with
    | nil => simp [charListCmp] at h
    | cons y ys =>
      cases hn : natCompare x.toNat y.toNat with
      | lt => simp [charListCmp, hn] at h
      | gt => simp [charListCmp, hn] at h
      | eq =>
        have hxy : x = y := char_toNat_inj (natCompare_eq_iff.mp hn)
        simp only [charListCmp, hn] at h
        rw [hxy, ih h]

/-- String comparison: `lt` is transitive. -/
theorem charListCmp_lt_trans {a : List Char} :
    ∀ {b c}, charListCmp a b = Ordering.lt → charListCmp b c = Ordering.lt →
      charListCmp a c = Ordering.lt := by
  induction a with
  | nil =>
    intro b c h1 h2
    cases b with
    | nil => simp [charListCmp] at h1
    | cons y ys =>
      cases c with
      | nil => simp [charListCmp] at h2
      | cons z zs => rfl
  | cons x xs ih =>
    intro b c h1 h2
    cases b with
    | nil => simp [charListCmp] at h1
    | cons y ys =>
      cases c with
      | nil => simp [charListCmp] at h2
      | cons z zs =>
        cases hn1 : natCompare x.toNat y.toNat with
        | gt => simp [charListCmp, hn1] at h1
        | lt =>
          cases hn2 : natCompare y.toNat z.toNat with
          | gt => simp [charListCmp, hn2] at h2
          | lt =>
            have hx : natCompare x.toNat z.toNat = Ordering.lt :=
              natCompare_lt_iff.mpr
                (lt_trans (natCompare_lt_iff.mp hn1) (natCompare_lt_iff.mp hn2))
            simp [charListCmp, hx]
          | eq =>
            have hyz := natCompare_eq_iff.mp hn2
            have hx : natCompare x.toNat z.toNat = Ordering.lt := by
              rw [← hyz]
              exact hn1
            simp [charListCmp, hx]
        | eq =>
          have hxy := natCompare_eq_iff.mp hn1
          simp only [charListCmp, hn1] at h1
          cases hn2 : natCompare y.toNat z.toNat with
          | gt => simp [charListCmp, hn2] at h2
          | lt =>
            have hx : natCompare x.toNat z.toNat = Ordering.lt := by
              rw [hxy]
              exact hn2
            simp [charListCmp, hx]
          | eq =>
            simp only [charListCmp, hn2] at h2
            have hxz : natCompare x.toNat z.toNat = Ordering.eq := by
              rw [hxy]
              exact hn2
            simp only [charListCmp, hxz]
            exact ih h1 h2

/-- Swapping the arguments of string comparison swaps the answer. -/
theorem charListCmp_swap (a : List Char) : ∀ b, charListCmp a b = (charListCmp b a).swap := by
  induction a with
  | nil =>
    intro b
    cases b <;> rfl
  | cons x xs ih =>
    intro b
    cases b with
    | nil => rfl
    | cons y ys =>
      cases hn : natCompare y.toNat x.toNat with
      | lt =>
        have hx : natCompare x.toNat y.toNat = Ordering.gt := by
          rw [natCompare_swap, hn]
          rfl
        simp [charListCmp, hn, hx, Ordering.swap]
      | gt =>
        have hx : natCompare x.toNat y.toNat = Ordering.lt := by
          rw [natCompare_swap, hn]
          rfl
        simp [charListCmp, hn, hx, Ordering.swap]
      | eq =>
        have hx : natCompare x.toNat y.toNat = Ordering.eq := by
          rw [natCompare_swap, hn]
          rfl
        simp only [charListCmp, hn, hx]
        exact ih ys

/-- Token comparison is reflexive. -/
theorem tokCmp_refl (t : Tok) : tokCmp t t = some Ordering.eq := by
  cases t <;> simp [tokCmp, natCompare_refl, charListCmp_refl]

/-- Token comparison answers `eq` only on equal tokens. -/
theorem tokCmp_eq {x y : Tok} (h : tokCmp x y = some Ordering.eq) : x = y := by
  cases x <;> cases y <;> simp [tokCmp] at h ⊢
  · exact charListCmp_eq h
  · exact natCompare_eq_iff.mp h

/-- Token comparison: `lt` is transitive. -/
theorem tokCmp_lt_trans {x y z : Tok} (h1 : tokCmp x y = some Ordering.lt)
    (h2 : tokCmp y z = some Ordering.lt) : tokCmp x z = some Ordering.lt := by
  cases x <;> cases y <;> cases z <;> simp [tokCmp] at h1 h2 ⊢
  · exact charListCmp_lt_trans h1 h2
  · exact natCompare_lt_iff.mpr
      (lt_trans (natCompare_lt_iff.mp h1) (natCompare_lt_iff.mp h2))

/-- Swapping the arguments of token comparison swaps the answer. -/
theorem tokCmp_swap (x y : Tok) : tokCmp x y = (tokCmp y x).map Ordering.swap := by
  cases x <;> cases y <;> simp [tokCmp]
  · exact charListCmp_swap _ _
  · exact natCompare_swap _ _

/-- Key comparison is reflexive. -/
theorem keyCmp_refl (k : List Tok) : keyCmp k k = some Ordering.eq := by
  induction k with
  | nil => rfl
  | cons t ts ih => simp [keyCmp, tokCmp_refl, ih]

/-- Key comparison answers `eq` only on equal keys. -/
theorem keyCmp_eq {a : List Tok} : ∀ {b}, keyCmp a b = some Ordering.eq → a = b := by
  induction a with
  | nil =>
    intro b h
    cases b with
    | nil => rfl
    | cons y ys => simp [keyCmp] at h
  | cons x xs ih =>
    intro b h
    cases b with
    | nil => simp [keyCmp] at h
    | cons y ys =>
      cases ht : tokCmp x y with
      | none => simp [keyCmp, ht] at h
      | some o =>
        cases o with
        | lt => simp [keyCmp, ht] at h
        | gt => simp [keyCmp, ht] at h
        | eq =>
          simp only [keyCmp, ht] at h
          rw [tokCmp_eq ht, ih h]

/-- Key comparison: `lt` is transitive. -/
theorem keyCmp_lt_trans {a : List Tok} :
    ∀ {b c}, keyCmp a b = some Ordering.lt → keyCmp b c = some Ordering.lt →
      keyCmp a c = some Ordering.lt := by
  induction a with
  | nil =>
    intro b c h1 h2
    cases b with
    | nil => simp [keyCmp] at h1
    | cons y ys =>
      cases c with
      | nil => simp [keyCmp] at h2
      | cons z zs => rfl
  | cons x xs ih =>
    intro b c h1 h2
    cases b with
    | nil => simp [keyCmp] at h1
    | cons y ys =>
      cases c with
      | nil => simp [keyCmp] at h2
      | cons z zs =>
        cases ht1 : tokCmp x y with
        | none => simp [keyCmp, ht1] at h1
        | some o1 =>
          cases o1 with
          | gt => simp [keyCmp, ht1] at h1
          | lt =>
            cases ht2 : tokCmp y z with
            | none => simp [keyCmp, ht2] at h2
            | some o2 =>
              cases o2 with
              | gt => simp [keyCmp, ht2] at h2
              | lt => simp [keyCmp, tokCmp_lt_trans ht1 ht2]
              | eq =>
                have hyz : y = z := tokCmp_eq ht2
                subst hyz
                simp [keyCmp, ht1]
          | eq =>
            have hxy : x = y := tokCmp_eq ht1
            subst hxy
            simp only [keyCmp, ht1] at h1
            cases ht2 : tokCmp x z with
            | none => simp [keyCmp, ht2] at h2
            | some o2 =>
              cases o2 with
              | gt => simp [keyCmp, ht2] at h2
              | lt => simp [keyCmp, ht2]
              | eq =>
                simp only [keyCmp, ht2] at h2
                simp only [keyCmp, ht2]
                exact ih h1 h2

/-- Swapping the arguments of key comparison swaps the answer. -/
theorem keyCmp_swap (a : List Tok) : ∀ b, keyCmp a b = (keyCmp b a).map Ordering.swap := by
  induction a with
  | nil =>
    intro b
    cases b <;> rfl
  | cons x xs ih =>
    intro b
    cases b with
    | nil => rfl
    | cons y ys =>
      cases ht : tokCmp y x with
      | none =>
        have hx : tokCmp x y = none := by
          rw [tokCmp_swap, ht]
          rfl
        simp [keyCmp, ht, hx]
      | some o =>
        have hx : tokCmp x y = some o.swap := by
          rw [tokCmp_swap, ht]
          rfl
        cases o with
        | lt => simp [keyCmp, ht, hx, Ordering.swap]
        | gt => simp [keyCmp, ht, hx, Ordering.swap]
        | eq =>
          simp only [keyCmp, ht, hx, Ordering.swap]
          exact ih ys

/-- Unfolding lemma for `chunks` on a cons. -/
theorem chunks_cons (c : Char) (l : List Char) :
    chunks (c :: l) = stepChunk c (chunks l) := rfl

/-- A non-digit character extends the leading non-digit piece. -/
theorem stepChunk_nondigit (c : Char) (hc : c.isDigit = false) (a : List Char) (r : List Chunk) :
    stepChunk c (Chunk.strC a :: r) = Chunk.strC (c :: a) :: r := by
  simp [stepChunk, hc]

/-- A digit character extends the digit run that directly follows an
empty leading piece. -/
theorem stepChunk_digit_merge (c : Char) (hc : c.isDigit = true) (d : List Char)
    (r : List Chunk) :
    stepChunk c (Chunk.strC [] :: Chunk.numC d :: r) =
      Chunk.strC [] :: Chunk.numC (c :: d) :: r := by
  simp [stepChunk, hc]

/-- A digit character prepended to the empty split opens a new run. -/
theorem stepChunk_digit_new_nil (c : Char) (hc : c.isDigit = true) :
    stepChunk c [Chunk.strC []] = [Chunk.strC [], Chunk.numC [c], Chunk.strC []] := by
  simp [stepChunk, hc]

/-- A digit character before a nonempty non-digit piece opens a new run. -/
theorem stepChunk_digit_new_cons (c : Char) (hc : c.isDigit = true) (a0 : Char)
    (as : List Char) (r : List Chunk) :
    stepChunk c (Chunk.strC (a0 :: as) :: r) =
      Chunk.strC [] :: Chunk.numC [c] :: Chunk.strC (a0 :: as) :: r := by
  simp [stepChunk, hc]

/-- The split of any string starts with a non-digit piece and has the
alternating well-formed shape. -/
theorem chunks_good (l : List Char) :
    (∃ a r, chunks l = Chunk.strC a :: r) ∧ chunkShape true (chunks l) = true := by
  induction l with
  | nil => exact ⟨⟨[], [], rfl⟩, rfl⟩
  | cons c cs ih =>
    obtain ⟨⟨a, r, har⟩, hsh⟩ := ih
    rw [har] at hsh
    cases hdc : c.isDigit with
    | false =>
      rw [chunks_cons, har, stepChunk_nondigit c hdc a r]
      refine ⟨⟨c :: a, r, rfl⟩, ?_⟩
      simp only [chunkShape, chunkOk, Chunk.isStr, List.all_cons, hdc,
        Bool.not_false, Bool.true_and, Bool.and_eq_true] at hsh ⊢
      exact hsh
    | true =>
      cases a with
      | nil =>
        cases r with
        | nil =>
          rw [chunks_cons, har, stepChunk_digit_new_nil c hdc]
          refine ⟨⟨[], _, rfl⟩, ?_⟩
          simp [chunkShape, chunkOk, Chunk.isStr, hdc]
        | cons r0 rs =>
          cases r0 with
          | strC a2 =>
            simp [chunkShape, Chunk.isStr] at hsh
          | numC d =>
            rw [chunks_cons, har, stepChunk_digit_merge c hdc d rs]
            refine ⟨⟨[], _, rfl⟩, ?_⟩
            simp only [chunkShape, chunkOk, Chunk.isStr, List.all_cons, hdc,
              List.isEmpty_cons, Bool.not_false, Bool.true_and, Bool.and_eq_true,
              List.all_nil, beq_self_eq_true, List.isEmpty_nil] at hsh ⊢
            simp_all
      | cons a0 as =>
        rw [chunks_cons, har, stepChunk_digit_new_cons c hdc a0 as r]
        refine ⟨⟨[], _, rfl⟩, ?_⟩
        simp only [chunkShape, chunkOk, Chunk.isStr, List.all_cons, hdc,
          List.isEmpty_cons, Bool.not_false, Bool.true_and, Bool.and_eq_true,
          List.all_nil, beq_self_eq_true, List.isEmpty_nil] at hsh ⊢
        simp_all

/-- A string starting with a non-digit character splits into a nonempty
leading non-digit piece. -/
theorem chunks_head_nondigit (c : Char) (cs : List Char) (hc : c.isDigit = false) :
    ∃ a r, chunks (c :: cs) = Chunk.strC (c :: a) :: r := by
  obtain ⟨⟨a, r, har⟩, _⟩ := chunks_good cs
  exact ⟨a, r, by rw [chunks_cons, har, stepChunk_nondigit c hc a r]⟩

/-- Splitting a maximal digit run followed by a remainder that does not
begin with a digit: the run becomes one captured piece, preceded by an
empty non-digit piece, followed by the split of the remainder. -/
theorem chunks_digit_run (d : List Char) (suf : List Char) (hne : d ≠ [])
    (hdig : ∀ c ∈ d, c.isDigit = true)
    (hsuf : suf = [] ∨ ∃ c cs, suf = c :: cs ∧ c.isDigit = false) :
    chunks (d ++ suf) = Chunk.strC [] :: Chunk.numC d :: chunks suf := by
  induction d with
  | nil => exact absurd rfl hne
  | cons c d2 ih =>
    have hc : c.isDigit = true := hdig c (List.mem_cons_self c d2)
    cases d2 with
    | nil =>
      rcases hsuf with hnil | ⟨s, ss, hcons, hs⟩
      · subst hnil
        simpa using stepChunk_digit_new_nil c hc
      · subst hcons
        obtain ⟨a, r, har⟩ := chunks_head_nondigit s ss hs
        rw [List.singleton_append, chunks_cons, har, stepChunk_digit_new_cons c hc s a r, ← har]
    | cons c2 d3 =>
      have ih2 := ih (by simp) (fun x hx => hdig x (List.mem_cons_of_mem c hx))
      rw [List.cons_append, chunks_cons, ih2, stepChunk_digit_merge c hc (c2 :: d3) _]

/-- Prepending a digit-free prefix to a string whose split starts with an
empty piece extends that piece with the whole prefix. -/
theorem chunks_nodigit_prefix (pre : List Char) :
    ∀ rest R, (∀ c ∈ pre, c.isDigit = false) →
      chunks rest = Chunk.strC [] :: R →
      chunks (pre ++ rest) = Chunk.strC pre :: R := by
  induction pre with
  | nil =>
    intro rest R _ hrest
    simpa using hrest
  | cons c pre2 ih =>
    intro rest R hnd hrest
    have ih2 := ih rest R (fun x hx => hnd x (List.mem_cons_of_mem c hx)) hrest
    rw [List.cons_append, chunks_cons, ih2,
      stepChunk_nondigit c (hnd c (List.mem_cons_self c pre2)) pre2 R]

/-- The split of `pre ++ d ++ suf` for a digit-free `pre`, a digit run
`d` and a remainder `suf` not starting with a digit. -/
theorem chunks_split (pre d suf : List Char)
    (hpre : ∀ c ∈ pre, c.isDigit = false)
    (hne : d ≠ []) (hdig : ∀ c ∈ d, c.isDigit = true)
    (hsuf : suf = [] ∨ ∃ c cs, suf = c :: cs ∧ c.isDigit = false) :
    chunks (pre ++ d ++ suf) = Chunk.strC pre :: Chunk.numC d :: chunks suf := by
  rw [List.append_assoc]
  exact chunks_nodigit_prefix pre (d ++ suf) _ hpre (chunks_digit_run d suf hne hdig hsuf)

/-- `pyTok` on a digit-free piece produces the lowercased string token. -/
theorem pyTok_nodigit (l : List Char) (h : ∀ c ∈ l, c.isDigit = false) :
    pyTok l = Tok.str (l.map Char.toLower) := by
  cases l with
  | nil => rfl
  | cons c cs =>
    have hc : c.isDigit = false := h c (List.mem_cons_self c cs)
    simp [pyTok, List.all_cons, hc]

/-- `pyTok` on a nonempty digit run produces the integer token. -/
theorem pyTok_digit (l : List Char) (hne : l ≠ []) (h : ∀ c ∈ l, c.isDigit = true) :
    pyTok l = Tok.num (digitsVal l) := by
  simp [pyTok, hne, List.all_eq_true.mpr h]

/-- C2 — For filenames that differ only in an embedded maximal digit run
(digit-free prefix, digit run, remainder not starting with a digit),
comparing the natural sort keys compares the runs by numeric value; in
particular a smaller run value sorts strictly earlier, independent of
the width of the runs. -/
theorem natural_key_numeric_order (pre d1 d2 suf : List Char)
    (hpre : ∀ c ∈ pre, c.isDigit = false)
    (hne1 : d1 ≠ []) (hdig1 : ∀ c ∈ d1, c.isDigit = true)
    (hne2 : d2 ≠ []) (hdig2 : ∀ c ∈ d2, c.isDigit = true)
    (hsuf : suf = [] ∨ ∃ c cs, suf = c :: cs ∧ c.isDigit = false) :
    keyCmp (natural_sort_key (String.mk (pre ++ d1 ++ suf)))
        (natural_sort_key (String.mk (pre ++ d2 ++ suf))) =
      some (natCompare (digitsVal d1) (digitsVal d2)) := by
  have hk1 : natural_sort_key (String.mk (pre ++ d1 ++ suf)) =
      Tok.str (pre.map Char.toLower) :: Tok.num (digitsVal d1) ::
        (chunks suf).map (fun ch => pyTok ch.contents) := by
    unfold natural_sort_key
    rw [(rfl : (String.mk (pre ++ d1 ++ suf)).data = pre ++ d1 ++ suf),
      chunks_split pre d1 suf hpre hne1 hdig1 hsuf, List.map_cons, List.map_cons]
    simp only [Chunk.contents]
    rw [pyTok_nodigit pre hpre, pyTok_digit d1 hne1 hdig1]
  have hk2 : natural_sort_key (String.mk (pre ++ d2 ++ suf)) =
      Tok.str (pre.map Char.toLower) :: Tok.num (digitsVal d2) ::
        (chunks suf).map (fun ch => pyTok ch.contents) := by
    unfold natural_sort_key
    rw [(rfl : (String.mk (pre ++ d2 ++ suf)).data = pre ++ d2 ++ suf),
      chunks_split pre d2 suf hpre hne2 hdig2 hsuf, List.map_cons, List.map_cons]
    simp only [Chunk.contents]
    rw [pyTok_nodigit pre hpre, pyTok_digit d2 hne2 hdig2]
  rw [hk1, hk2]
  have hstr : tokCmp (Tok.str (pre.map Char.toLower)) (Tok.str (pre.map Char.toLower)) =
      some Ordering.eq := tokCmp_refl _
  cases hv : natCompare (digitsVal d1) (digitsVal d2) with
  | lt => simp [keyCmp, tokCmp, charListCmp_refl, hv]
  | gt => simp [keyCmp, tokCmp, charListCmp_refl, hv]
  | eq =>
    simp only [keyCmp, tokCmp, charListCmp_refl, hv]
    exact keyCmp_refl _

/-- Witness for C2: `frame_2.png` sorts strictly before `frame_10.png`. -/
theorem natural_key_numeric_order_witness :
    keyCmp (natural_sort_key "frame_2.png") (natural_sort_key "frame_10.png") =
      some Ordering.lt := by
  have h := natural_key_numeric_order
    ['f', 'r', 'a', 'm', 'e', '_'] ['2'] ['1', '0'] ['.', 'p', 'n', 'g']
    (by decide) (by decide) (by decide) (by decide) (by decide)
    (Or.inr ⟨'.', ['p', 'n', 'g'], rfl, by decide⟩)
  exact h.trans (by decide)

/-- Tokenizing a well-shaped piece list yields alternating tokens. -/
theorem shape_alt (L : List Chunk) : ∀ b, chunkShape b L = true →
    altFrom b (L.map (fun ch => pyTok ch.contents)) = true := by
  induction L with
  | nil =>
    intro b _
    rfl
  | cons ch rest ih =>
    intro b h
    simp only [chunkShape, Bool.and_eq_true, beq_iff_eq] at h
    obtain ⟨⟨hb, hok⟩, hrest⟩ := h
    cases ch with
    | strC l =>
      have hfree : ∀ c ∈ l, c.isDigit = false := by
        intro c hcmem
        have h2 := List.all_eq_true.mp hok c hcmem
        simpa using h2
      rw [List.map_cons]
      simp only [Chunk.contents]
      rw [pyTok_nodigit l hfree]
      rw [(rfl : Chunk.isStr (Chunk.strC l) = true)] at hb
      subst hb
      simp only [altFrom, Tok.isStrT, beq_self_eq_true, Bool.true_and]
      exact ih _ hrest
    | numC l =>
      simp only [chunkOk, Bool.and_eq_true] at hok
      obtain ⟨hne0, hall⟩ := hok
      have hne : l ≠ [] := by
        cases l with
        | nil => simp at hne0
        | cons x xs => simp
      have hdig : ∀ c ∈ l, c.isDigit = true := List.all_eq_true.mp hall
      rw [List.map_cons]
      simp only [Chunk.contents]
      rw [pyTok_digit l hne hdig]
      rw [(rfl : Chunk.isStr (Chunk.numC l) = false)] at hb
      subst hb
      simp only [altFrom, Tok.isStrT, beq_self_eq_true, Bool.true_and]
      exact ih _ hrest

/-- Every natural sort key alternates starting from a string token. -/
theorem key_alt (s : String) : altFrom true (natural_sort_key s) = true := by
  unfold natural_sort_key
  exact shape_alt (chunks s.data) true (chunks_good s.data).2

/-- In an alternating token list, the token type is determined by the
parity of the index. -/
theorem altFrom_get (l : List Tok) : ∀ b, altFrom b l = true →
    ∀ i, ∀ hi : i < l.length,
      (l.get ⟨i, hi⟩).isStrT = ((decide (i % 2 = 0)) == b) := by
  induction l with
  | nil =>
    intro b _ i hi
    simp at hi
  | cons t ts ih =>
    intro b h i hi
    simp only [altFrom, Bool.and_eq_true, beq_iff_eq] at h
    obtain ⟨hb, hrest⟩ := h
    cases i with
    | zero =>
      show t.isStrT = (decide (0 % 2 = 0) == b)
      rw [hb]
      cases b <;> rfl
    | succ j =>
      have hj : j < ts.length := Nat.lt_of_succ_lt_succ hi
      show (ts.get ⟨j, hj⟩).isStrT = (decide ((j + 1) % 2 = 0) == b)
      rw [ih (!b) hrest j hj]
      by_cases hp : j % 2 = 0
      · have h1 : ¬((j + 1) % 2 = 0) := by omega
        cases b <;> simp [hp, h1]
      · have h1 : (j + 1) % 2 = 0 := by omega
        cases b <;> simp [hp, h1]

/-- Comparing two alternating token lists of the same phase never hits a
mixed-type comparison. -/
theorem alt_cmp_isSome (l1 : List Tok) : ∀ b l2, altFrom b l1 = true → altFrom b l2 = true →
    (keyCmp l1 l2).isSome = true := by
  induction l1 with
  | nil =>
    intro b l2 _ _
    cases l2 <;> rfl
  | cons t ts ih =>
    intro b l2 h1 h2
    cases l2 with
    | nil => rfl
    | cons u us =>
      simp only [altFrom, Bool.and_eq_true, beq_iff_eq] at h1 h2
      obtain ⟨hbt, hts⟩ := h1
      obtain ⟨hbu, hus⟩ := h2
      subst hbt
      have htok : (tokCmp t u).isSome = true := by
        cases t <;> cases u <;> simp [Tok.isStrT] at hbu ⊢ <;> simp [tokCmp]
      obtain ⟨o, ho⟩ := Option.isSome_iff_exists.mp htok
      cases o with
      | lt => simp [keyCmp, ho]
      | gt => simp [keyCmp, ho]
      | eq =>
        simp only [keyCmp, ho]
        exact ih _ us hts hus

/-- Every character of a piece of the split is a character of the split
string. -/
theorem chunks_contents_subset (l : List Char) :
    ∀ ch ∈ chunks l, ∀ c ∈ ch.contents, c ∈ l := by
  induction l with
  | nil =>
    intro ch hch c hc
    simp only [chunks, List.foldr_nil, List.mem_singleton] at hch
    subst hch
    simp [Chunk.contents] at hc
  | cons x xs ih =>
    intro ch hch c hc
    obtain ⟨⟨a, r, har⟩, hsh⟩ := chunks_good xs
    rw [har] at hsh
    rw [chunks_cons, har] at hch
    cases hdx : x.isDigit with
    | false =>
      rw [stepChunk_nondigit x hdx a r] at hch
      rcases List.mem_cons.mp hch with rfl | hmem
      · simp only [Chunk.contents] at hc
        rcases List.mem_cons.mp hc with rfl | hca
        · exact List.mem_cons_self _ _
        · refine List.mem_cons_of_mem x (ih (Chunk.strC a) ?_ c hca)
          rw [har]
          exact List.mem_cons_self _ _
      · refine List.mem_cons_of_mem x (ih ch ?_ c hc)
        rw [har]
        exact List.mem_cons_of_mem _ hmem
    | true =>
      cases a with
      | nil =>
        cases r with
        | nil =>
          rw [stepChunk_digit_new_nil x hdx] at hch
          rcases List.mem_cons.mp hch with rfl | hch1
          · simp [Chunk.contents] at hc
          rcases List.mem_cons.mp hch1 with rfl | hch2
          · simp only [Chunk.contents] at hc
            rw [List.mem_singleton.mp hc]
            exact List.mem_cons_self _ _
          · rw [List.mem_singleton.mp hch2] at hc
            simp [Chunk.contents] at hc
        | cons r0 rs =>
          cases r0 with
          | strC a2 => simp [chunkShape, chunkOk, Chunk.isStr] at hsh
          | numC dd =>
            rw [stepChunk_digit_merge x hdx dd rs] at hch
            rcases List.mem_cons.mp hch with rfl | hch1
            · simp [Chunk.contents] at hc
            rcases List.mem_cons.mp hch1 with rfl | hch2
            · simp only [Chunk.contents] at hc
              rcases List.mem_cons.mp hc with rfl | hcd
              · exact List.mem_cons_self _ _
              · refine List.mem_cons_of_mem x (ih (Chunk.numC dd) ?_ c hcd)
                rw [har]
                exact List.mem_cons_of_mem _ (List.mem_cons_self _ _)
            · refine List.mem_cons_of_mem x (ih ch ?_ c hc)
              rw [har]
              exact List.mem_cons_of_mem _ (List.mem_cons_of_mem _ hch2)
      | cons a0 as =>
        rw [stepChunk_digit_new_cons x hdx a0 as r] at hch
        rcases List.mem_cons.mp hch with rfl | hch1
        · simp [Chunk.contents] at hc
        rcases List.mem_cons.mp hch1 with rfl | hch2
        · simp only [Chunk.contents] at hc
          rw [List.mem_singleton.mp hc]
          exact List.mem_cons_self _ _
        · refine List.mem_cons_of_mem x (ih ch ?_ c hc)
          rw [har]
          exact hch2

/-- On an ASCII digit run the Unicode-aware digit fold agrees with the
ASCII one. -/
theorem pyFold_eq (l : List Char) (h : ∀ c ∈ l, c.isDigit = true) :
    ∀ a : Nat, l.foldl (fun a c => 10 * a + pyDigitVal c) a =
      l.foldl (fun a c => 10 * a + (c.toNat - 48)) a := by
  induction l with
  | nil =>
    intro a
    rfl
  | cons c cs ih =>
    intro a
    have hc : c.isDigit = true := h c (List.mem_cons_self c cs)
    simp only [List.foldl_cons]
    rw [(by simp [pyDigitVal, hc] : pyDigitVal c = c.toNat - 48)]
    exact ih (fun d hd => h d (List.mem_cons_of_mem c hd)) _

/-- On a piece free of non-ASCII digit characters the Unicode-aware
tokenizer agrees with the ASCII one. -/
theorem pyTokU_eq_pyTok (l : List Char) (h : ∀ c ∈ l, pyIsDigit c = c.isDigit) :
    pyTokU l = pyTok l := by
  unfold pyTokU pyTok
  by_cases hcond : l ≠ [] ∧ l.all Char.isDigit = true
  · have hall : l.all pyIsDigit = true := by
      rw [List.all_eq_true]
      intro c hcmem
      rw [h c hcmem]
      exact List.all_eq_true.mp hcond.2 c hcmem
    rw [if_pos ⟨hcond.1, hall⟩, if_pos hcond]
    have hdig := List.all_eq_true.mp hcond.2
    simp only [pyDigitsVal, digitsVal]
    rw [pyFold_eq l hdig 0]
  · have hcond2 : ¬(l ≠ [] ∧ l.all pyIsDigit = true) := by
      intro hand
      apply hcond
      refine ⟨hand.1, ?_⟩
      rw [List.all_eq_true]
      intro c hcmem
      rw [← h c hcmem]
      exact List.all_eq_true.mp hand.2 c hcmem
    rw [if_neg hcond2, if_neg hcond]

/-- On a string free of non-ASCII digit characters the Unicode-aware
key agrees with the ASCII one. -/
theorem natural_sort_key_py_eq (s : String) (h : ∀ c ∈ s.data, pyIsDigit c = c.isDigit) :
    natural_sort_key_py s = natural_sort_key s := by
  unfold natural_sort_key_py natural_sort_key
  apply List.map_congr_left
  intro ch hch
  exact pyTokU_eq_pyTok ch.contents
    (fun c hc => h c (chunks_contents_subset s.data ch hch c hc))

/-- Counterexample to C9 as stated: with Python's Unicode-aware
`str.isdigit()`, the filename `"٢3x.png"` (leading ARABIC-INDIC DIGIT
TWO, which the ASCII regex does not capture but `isdigit()` accepts)
produces the key `[2, 3, "x.png"]`, an integer token at even index 0;
comparing that key with the key of `"a.png"` compares an integer token
against a string token, the `TypeError` case (`none`), so sorting the
list `["٢3x.png", "a.png"]` raises. -/
theorem natural_key_token_alternation_counterexample :
    natural_sort_key_py "٢3x.png" =
      [Tok.num 2, Tok.num 3, Tok.str ['x', '.', 'p', 'n', 'g']] ∧
    ((natural_sort_key_py "٢3x.png").get ⟨0, by decide⟩).isStrT = false ∧
    keyCmp (natural_sort_key_py "٢3x.png") (natural_sort_key_py "a.png") = none :=
  ⟨by decide, by decide, by decide⟩

/-- C9 (amended) — For strings containing no non-ASCII digit characters
(characters Python's Unicode-aware `str.isdigit()` accepts beyond
`0`..`9`), every natural sort key has string tokens exactly at even
indices and integer tokens at odd indices, and comparing the keys of
two such strings never compares an integer token against a string
token (the comparison always yields an answer, so sorting such
filenames cannot raise a type error).  Without the restriction the
property fails; see the counterexample. -/
theorem natural_key_token_alternation (s t : String)
    (hs : ∀ c ∈ s.data, pyIsDigit c = c.isDigit)
    (ht : ∀ c ∈ t.data, pyIsDigit c = c.isDigit) :
    (∀ i, ∀ hi : i < (natural_sort_key_py s).length,
      ((natural_sort_key_py s).get ⟨i, hi⟩).isStrT = decide (i % 2 = 0)) ∧
    (keyCmp (natural_sort_key_py s) (natural_sort_key_py t)).isSome = true := by
  rw [natural_sort_key_py_eq s hs, natural_sort_key_py_eq t ht]
  constructor
  · intro i hi
    have h := altFrom_get (natural_sort_key s) true (key_alt s) i hi
    simpa using h
  · exact alt_cmp_isSome (natural_sort_key s) true (natural_sort_key t) (key_alt s) (key_alt t)

/-- Witness for the amended C9 at two concrete frame filenames. -/
theorem natural_key_token_alternation_witness :
    ((natural_sort_key_py "frame_2.png").get ⟨0, by decide⟩).isStrT =
      decide ((0 : Nat) % 2 = 0) ∧
    (keyCmp (natural_sort_key_py "frame_2.png")
      (natural_sort_key_py "frame_10.png")).isSome = true :=
  ⟨(natural_key_token_alternation "frame_2.png" "frame_10.png"
      (by decide) (by decide)).1 0 (by decide),
   (natural_key_token_alternation "frame_2.png" "frame_10.png"
      (by decide) (by decide)).2⟩

instance : IsTotal String keyLe :=
  ⟨fun s t => by
    cases ho : keyCmp (natural_sort_key s) (natural_sort_key t) with
    | none => exact Or.inl (by simp [keyLe, ho])
    | some o =>
      cases o with
      | lt => exact Or.inl (by simp [keyLe, ho])
      | eq => exact Or.inl (by simp [keyLe, ho])
      | gt =>
        refine Or.inr ?_
        have hswap := keyCmp_swap (natural_sort_key t) (natural_sort_key s)
        rw [ho] at hswap
        simp [keyLe, hswap, Ordering.swap]⟩

instance : IsTrans String keyLe :=
  ⟨fun a b c hab hbc => by
    have hs1 := alt_cmp_isSome (natural_sort_key a) true (natural_sort_key b)
      (key_alt a) (key_alt b)
    have hs2 := alt_cmp_isSome (natural_sort_key b) true (natural_sort_key c)
      (key_alt b) (key_alt c)
    obtain ⟨o1, ho1⟩ := Option.isSome_iff_exists.mp hs1
    obtain ⟨o2, ho2⟩ := Option.isSome_iff_exists.mp hs2
    unfold keyLe at hab hbc ⊢
    cases o1 with
    | gt => exact absurd ho1 hab
    | eq =>
      have hk : natural_sort_key a = natural_sort_key b := keyCmp_eq ho1
      rw [hk]
      exact hbc
    | lt =>
      cases o2 with
      | gt => exact absurd ho2 hbc
      | eq =>
        have hk : natural_sort_key b = natural_sort_key c := keyCmp_eq ho2
        rw [← hk]
        exact hab
      | lt =>
        have h3 := keyCmp_lt_trans ho1 ho2
        simp [h3]⟩

/-- Quantization emits a palette of at most 256 colors. -/
theorem convertP_palette_le (img : RGBAImage) : (convertP img).palette.length ≤ 256 := by
  simp only [convertP]
  exact List.length_take_le _ _

/-- C5 — On a directory with N ≥ 1 frame files the fallback encoder
produces exactly one output GIF whose frame count equals N, whose
frames are the input frames in natural-sort order of their filenames,
each quantized to a palette of at most 256 colors, and whose loop count
is 0 (loop forever). -/
theorem fallback_encoder_output (d : Dir) (h : pngs d.entries ≠ []) :
    ∃ g : GifData,
      create_gif_from_frames d = Except.ok (some g) ∧
      g.frames.length = (pngs d.entries).length ∧
      g.loop = 0 ∧
      (∀ p ∈ g.frames, p.palette.length ≤ 256) ∧
      (∃ ordering : List String,
        ordering.Perm (pngs d.entries) ∧
        List.Sorted keyLe ordering ∧
        g.frames = ordering.map (fun n => convertP ((openImage d n).getD default))) := by
  refine ⟨_, create_gif_ok d h, ?_, rfl, ?_, ?_⟩
  · simp only [saveGif]
    rw [List.length_map]
    exact (List.perm_insertionSort keyLe (pngs d.entries)).length_eq
  · intro p hp
    simp only [saveGif] at hp
    obtain ⟨n, _, rfl⟩ := List.mem_map.mp hp
    exact convertP_palette_le _
  · exact ⟨List.insertionSort keyLe (pngs d.entries), List.perm_insertionSort keyLe _,
      List.sorted_insertionSort keyLe _, rfl⟩

/-- The two-frame directory, listed out of order, of the C5 witness. -/
def exDirC5 : Dir :=
  ⟨[("frame_10.png", ⟨1, 1, [[⟨1, 2, 3, 255⟩]]⟩),
    ("frame_2.png", ⟨1, 1, [[⟨4, 5, 6, 255⟩]]⟩)]⟩

/-- Witness for C5 at a concrete two-frame directory. -/
theorem fallback_encoder_output_witness :
    pngs exDirC5.entries ≠ [] ∧
    ∃ g : GifData,
      create_gif_from_frames exDirC5 = Except.ok (some g) ∧
      g.frames.length = (pngs exDirC5.entries).length ∧
      g.loop = 0 ∧
      (∀ p ∈ g.frames, p.palette.length ≤ 256) ∧
      (∃ ordering : List String,
        ordering.Perm (pngs exDirC5.entries) ∧
        List.Sorted keyLe ordering ∧
        g.frames = ordering.map (fun n => convertP ((openImage exDirC5 n).getD default))) :=
  ⟨by decide, fallback_encoder_output exDirC5 (by decide)⟩
